import Mathlib

/-!
Verification development for the tswHist repository (sliding-window histogram
computation in C).  The definitions below are a shallow embedding of
src/tswHist.h together with the MEX entry points src/tswHist_mx_c.c (the
pre-normalized variant) and src/tswHist_mx.c (the range-normalized variant).

Modelling conventions:
* `double` input values are modelled by `ℚ`; all quantities the algorithm
  stores in histogram buffers are integers, modelled by `ℤ`.
* `size_t` arithmetic is modelled by `ℤ` expressions reduced by `u64`
  (reduction modulo 2 ^ 64 followed by `Int.toNat`), so unsigned wraparound
  behaves exactly as two's-complement 64-bit arithmetic.
* mutable buffers (`hist_vec`, `bufferHist`, `histMat`) are modelled as total
  functions; a C write `a[i] = v` becomes a functional update.  The
  `const double *` parameters of the C functions are plain read-only inputs
  of the corresponding Lean functions.
* `mexErrMsgIdAndTxt` aborts the MEX call, so the gateway functions are
  modelled with `Except`: an error value is returned at exactly the program
  point where the C code would abort, before any later work happens.
-/

namespace TswHist

/-- Reduction of a signed integer expression to a `size_t` value: the C
computations on `size_t` operands are congruent to integer arithmetic
modulo 2 ^ 64. -/
def u64 (x : ℤ) : ℕ := (x % (2 ^ 64 : ℤ)).toNat

/-- Embedding of `pushHist` (src/tswHist.h lines 29-36): for each element,
`int bin = (int)input_int[i]; if (bin >= 0 && bin < n_bins) hist_vec[bin] += 1;`.
The buffer of doubles holding integer bin values is modelled as `List ℤ`. -/
def pushHist : (ℕ → ℤ) → List ℤ → ℕ → (ℕ → ℤ)
  | hist_vec, [], _ => hist_vec
  | hist_vec, bin :: rest, n_bins =>
      pushHist
        (if 0 ≤ bin ∧ bin < (n_bins : ℤ) then
          Function.update hist_vec bin.toNat (hist_vec bin.toNat + 1)
        else hist_vec)
        rest n_bins

/-- Embedding of `popHist` (src/tswHist.h lines 38-45); identical to
`pushHist` except that the matching bin count is decremented. -/
def popHist : (ℕ → ℤ) → List ℤ → ℕ → (ℕ → ℤ)
  | hist_vec, [], _ => hist_vec
  | hist_vec, bin :: rest, n_bins =>
      popHist
        (if 0 ≤ bin ∧ bin < (n_bins : ℤ) then
          Function.update hist_vec bin.toNat (hist_vec bin.toNat - 1)
        else hist_vec)
        rest n_bins

/-- Embedding of the `offsets` buffer prepared by `tswHist`
(src/tswHist.h lines 117-119): `offsets[i] = -(double)(stride - 1 - i)`. -/
def offsets (stride j : ℕ) : ℤ := -((stride : ℤ) - 1 - j)

/-- Embedding of the pop loop inside `tswHistSlidingWindow`
(src/tswHist.h lines 60-66): for `j < stride`,
`idx = base_pop + (size_t)offsets[j]`, and if `idx < input_len` one element is
popped.  `base` is the signed value whose `u64` image is the C `base_pop`. -/
def popLoop (buf : ℕ → ℤ) (input_int : List ℤ) (base : ℤ)
    (stride n_bins input_len : ℕ) : ℕ → ℤ :=
  (List.range stride).foldl
    (fun h j =>
      let idx := u64 (base + offsets stride j)
      if idx < input_len then popHist h [input_int.getD idx 0] n_bins else h)
    buf

/-- Embedding of the push loop inside `tswHistSlidingWindow`
(src/tswHist.h lines 67-73), symmetric to `popLoop`. -/
def pushLoop (buf : ℕ → ℤ) (input_int : List ℤ) (base : ℤ)
    (stride n_bins input_len : ℕ) : ℕ → ℤ :=
  (List.range stride).foldl
    (fun h j =>
      let idx := u64 (base + offsets stride j)
      if idx < input_len then pushHist h [input_int.getD idx 0] n_bins else h)
    buf

/-- One iteration of the sliding-window loop body acting on the accumulator
(src/tswHist.h lines 59-73): pop with
`base_pop = (size_t)strided_windows_loci[w] - 2`, then push with
`base_push = (size_t)strided_windows_loci[w] + win_len - 2`. -/
def slideOnce (buf : ℕ → ℤ) (input_int : List ℤ) (lociw : ℤ)
    (win_len n_bins stride input_len : ℕ) : ℕ → ℤ :=
  pushLoop
    (popLoop buf input_int ((u64 lociw : ℤ) - 2) stride n_bins input_len)
    input_int ((u64 lociw : ℤ) + (win_len : ℤ) - 2) stride n_bins input_len

/-- Loop body of `tswHistSlidingWindow` for window index `w`: update the
accumulator by `slideOnce`, then store it into column `w` of `histMat`
(src/tswHist.h lines 74-76: `histMat[b + w * n_bins] = bufferHist[b]` for
`b < n_bins`). -/
def slideBody (input_int : List ℤ) (strided_windows_loci : ℕ → ℤ)
    (win_len n_bins stride input_len : ℕ)
    (st : (ℕ → ℕ → ℤ) × (ℕ → ℤ)) (w : ℕ) : (ℕ → ℕ → ℤ) × (ℕ → ℤ) :=
  (fun wp b =>
    if wp = w ∧ b < n_bins then
      slideOnce st.2 input_int (strided_windows_loci w)
        win_len n_bins stride input_len b
    else st.1 wp b,
   slideOnce st.2 input_int (strided_windows_loci w)
     win_len n_bins stride input_len)

/-- Embedding of `tswHistSlidingWindow` (src/tswHist.h lines 47-78): the loop
`for (w = 1; w < num_windows; ++w)` threading the histogram matrix (column
`w` holds bin `b` at `histMat w b`) and the shared accumulator.  The
`offsets` buffer passed by the C caller always holds `offsets stride j`
(src/tswHist.h lines 117-119), which the model uses directly; `input_int`,
`strided_windows_loci` and `offsets` are `const` in C and are read-only
inputs here. -/
def tswHistSlidingWindow (histMat : ℕ → ℕ → ℤ) (bufferHist : ℕ → ℤ)
    (input_int : List ℤ) (strided_windows_loci : ℕ → ℤ)
    (num_windows win_len n_bins stride : ℕ) (input_len : ℕ) :
    (ℕ → ℕ → ℤ) × (ℕ → ℤ) :=
  (List.range' 1 (num_windows - 1)).foldl
    (slideBody input_int strided_windows_loci win_len n_bins stride input_len)
    (histMat, bufferHist)

/-- Embedding of `num_windows = (input_len - win_len) / stride + 1`
(src/tswHist.h line 88, src/tswHist_mx_c.c line 71): the subtraction is done
on `size_t`, hence reduced by `u64`. -/
def numWindows (input_len win_len stride : ℕ) : ℕ :=
  u64 ((input_len : ℤ) - (win_len : ℤ)) / stride + 1

/-- Embedding of the strided window loci (src/tswHist.h lines 91-92):
`strided_windows_loci[i] = i * stride + 1` (1-based for MATLAB).  The C code
fills exactly `num_windows` entries; the sliding loop only ever reads indices
`w < num_windows`, so the total function is observationally identical. -/
def lociOf (stride i : ℕ) : ℤ := (i : ℤ) * stride + 1

/-- Embedding of the binner of the pre-normalized variant
(src/tswHist.h lines 101-108): `bin = (int)floor(input_norm[i] * n_bins);
if (bin == (int)n_bins) bin = n_bins - 1;`. -/
def binOf (x : ℚ) (n_bins : ℕ) : ℤ :=
  if ⌊x * (n_bins : ℚ)⌋ = (n_bins : ℤ) then (n_bins : ℤ) - 1
  else ⌊x * (n_bins : ℚ)⌋

/-- The binned sequence `input_int` computed by `tswHist`
(src/tswHist.h lines 100-108). -/
def tswBinned (input_norm : List ℚ) (n_bins : ℕ) : List ℤ :=
  input_norm.map (fun x => binOf x n_bins)

/-- Outputs of one computation: the histogram matrix
(`histMat w b` = row `b`, column `w`, i.e. C `histMat[b + w * n_bins]`),
the window loci and the bin edges. -/
structure TswOut where
  histMat : ℕ → ℕ → ℤ
  strided_windows_loci : ℕ → ℤ
  edges : ℕ → ℚ

/-- Embedding of `tswHist` (src/tswHist.h lines 80-138).  `histMat0` is the
caller-provided output buffer (the MEX caller passes a zeroed matrix);
`tswHist` writes column 0 from the seeded accumulator
(lines 110-114) and then runs the sliding-window loop. -/
def tswHist (input_norm : List ℚ) (n_bins win_len stride : ℕ)
    (histMat0 : ℕ → ℕ → ℤ) : TswOut :=
  let input_len := input_norm.length
  let num_windows := numWindows input_len win_len stride
  let loci := lociOf stride
  let edges : ℕ → ℚ := fun i => 1 * ((i : ℚ) / (n_bins : ℚ))
  let input_int := tswBinned input_norm n_bins
  let bufferHist := pushHist (fun _ => 0) (input_int.take win_len) n_bins
  let histMat1 : ℕ → ℕ → ℤ :=
    fun w b => if w = 0 ∧ b < n_bins then bufferHist b else histMat0 w b
  let res := tswHistSlidingWindow histMat1 bufferHist input_int loci
    num_windows win_len n_bins stride input_len
  ⟨res.1, loci, edges⟩

/-- The histogram of positions `[start, start + win_len)` of the binned
sequence computed from scratch by a full scan: exactly what
`pushHist(zero_buffer, &input_int[start], win_len, n_bins)` computes
(compare the first-window seeding, src/tswHist.h line 112). -/
def scratchHist (input_int : List ℤ) (start win_len n_bins : ℕ) : ℕ → ℤ :=
  pushHist (fun _ => 0) ((input_int.drop start).take win_len) n_bins

/-- Number of elements equal to bin `b` among positions `[a, a + len)` of the
binned sequence. -/
def segCount (input_int : List ℤ) (a len b : ℕ) : ℕ :=
  ((input_int.drop a).take len).countP (fun x => decide (x = (b : ℤ)))

/-- Accumulator state after processing window `w`: state 0 is the seeded
first-window accumulator, and each further state is one `slideOnce`
transition (the linear recurrence of the sliding loop). -/
def bufferAt (buffer0 : ℕ → ℤ) (input_int : List ℤ)
    (strided_windows_loci : ℕ → ℤ)
    (win_len n_bins stride input_len : ℕ) : ℕ → (ℕ → ℤ)
  | 0 => buffer0
  | w + 1 =>
      slideOnce
        (bufferAt buffer0 input_int strided_windows_loci
          win_len n_bins stride input_len w)
        input_int (strided_windows_loci (w + 1))
        win_len n_bins stride input_len

/-- Errors raised through `mexErrMsgIdAndTxt` by the MEX gateways. -/
inductive MexErr where
  | badBins
  | strideWin
  deriving DecidableEq

/-- Embedding of `mexFunction` in src/tswHist_mx_c.c (pre-normalized
variant), called with all four arguments.  Checks in source order
(lines 65-68): `n_bins <= 2`, then `stride >= win_len`; only then are the
output matrices allocated (zero-initialized by `mxCreateDoubleMatrix`) and
`tswHist` is run (lines 70-95).  No further validation exists: neither
`win_len > input_len` nor emptiness of the input is checked. -/
def mexFunction_c (input : List ℚ) (n_bins win_len stride : ℕ) :
    Except MexErr TswOut :=
  if n_bins ≤ 2 then .error .badBins
  else if win_len ≤ stride then .error .strideWin
  else .ok (tswHist input n_bins win_len stride (fun _ _ => 0))

/-- Embedding of the `min_val` scan of src/tswHist_mx.c lines 79-83: seed
with `input[0]` and fold over the remaining elements.  For empty input the C
code reads out of bounds; the model seeds with a default. -/
def minVal (input : List ℚ) : ℚ := input.tail.foldl min (input.headD 0)

/-- Embedding of the `max_val` scan of src/tswHist_mx.c lines 79-83. -/
def maxVal (input : List ℚ) : ℚ := input.tail.foldl max (input.headD 0)

/-- Embedding of the computation body of src/tswHist_mx.c (range-normalized
variant, lines 67-137): loci, min/max scan, edges, normalization
`(input[i] - min_val) / (max_val - min_val)` followed by the same
floor-and-clamp binning, then seeding and the sliding-window loop.  In C a
degenerate range makes the normalization divide by zero (NaN); in `ℚ`
division by zero yields 0.  Either way the computation proceeds — no
rejection happens — which is the behaviour the theorems below rely on. -/
def tswHist_mx_body (input : List ℚ) (n_bins win_len stride : ℕ) : TswOut :=
  let input_len := input.length
  let num_windows := numWindows input_len win_len stride
  let loci := lociOf stride
  let mn := minVal input
  let mx := maxVal input
  let edges : ℕ → ℚ := fun i => mn + (mx - mn) * ((i : ℚ) / (n_bins : ℚ))
  let input_int : List ℤ := input.map (fun x => binOf ((x - mn) / (mx - mn)) n_bins)
  let bufferHist := pushHist (fun _ => 0) (input_int.take win_len) n_bins
  let histMat1 : ℕ → ℕ → ℤ :=
    fun w b => if w = 0 ∧ b < n_bins then bufferHist b else 0
  let res := tswHistSlidingWindow histMat1 bufferHist input_int loci
    num_windows win_len n_bins stride input_len
  ⟨res.1, loci, edges⟩

/-- Embedding of `mexFunction` in src/tswHist_mx.c (range-normalized
variant): validation in source order (lines 62-65) — `n_bins <= 2`, then
`stride >= win_len` — and then the whole computation body.  There is no
degenerate-range (`max_val == min_val`) check anywhere. -/
def mexFunction_mx (input : List ℚ) (n_bins win_len stride : ℕ) :
    Except MexErr TswOut :=
  if n_bins ≤ 2 then .error .badBins
  else if win_len ≤ stride then .error .strideWin
  else .ok (tswHist_mx_body input n_bins win_len stride)

/-! Pointwise evaluation of the accumulator operations. -/

/-- Effect of one push step on bin `b < n_bins`: the count grows by 1 exactly
when the processed value equals `b`. -/
lemma pushStep_apply (hist : ℕ → ℤ) (x : ℤ) (n b : ℕ) (hb : b < n) :
    (if 0 ≤ x ∧ x < (n : ℤ) then
        Function.update hist x.toNat (hist x.toNat + 1) else hist) b
      = hist b + if x = (b : ℤ) then 1 else 0 := by
  by_cases h : 0 ≤ x ∧ x < (n : ℤ)
  · rw [if_pos h, Function.update_apply]
    by_cases hxb : x.toNat = b
    · have hx : x = (b : ℤ) := by omega
      simp [hxb, hx]
    · have hx : ¬(x = (b : ℤ)) := by omega
      have hbx : ¬(b = x.toNat) := by omega
      simp [hbx, hx]
  · rw [if_neg h]
    have hx : ¬(x = (b : ℤ)) := by omega
    simp [hx]

/-- Effect of one pop step on bin `b < n_bins`. -/
lemma popStep_apply (hist : ℕ → ℤ) (x : ℤ) (n b : ℕ) (hb : b < n) :
    (if 0 ≤ x ∧ x < (n : ℤ) then
        Function.update hist x.toNat (hist x.toNat - 1) else hist) b
      = hist b - if x = (b : ℤ) then 1 else 0 := by
  by_cases h : 0 ≤ x ∧ x < (n : ℤ)
  · rw [if_pos h, Function.update_apply]
    by_cases hxb : x.toNat = b
    · have hx : x = (b : ℤ) := by omega
      simp [hxb, hx]
    · have hx : ¬(x = (b : ℤ)) := by omega
      have hbx : ¬(b = x.toNat) := by omega
      simp [hbx, hx]
  · rw [if_neg h]
    have hx : ¬(x = (b : ℤ)) := by omega
    simp [hx]

/-- `pushHist` adds, to each in-range bin, the number of matching elements. -/
lemma pushHist_apply_lt (hist : ℕ → ℤ) (l : List ℤ) (n b : ℕ) (hb : b < n) :
    pushHist hist l n b
      = hist b + (l.countP (fun x => decide (x = (b : ℤ))) : ℤ) := by
  induction l generalizing hist with
  | nil => simp [pushHist]
  | cons x l ih =>
      rw [pushHist, ih, pushStep_apply hist x n b hb, List.countP_cons]
      simp only [decide_eq_true_eq]
      push_cast
      ring

/-- `pushHist` never touches a bin index `≥ n_bins`. -/
lemma pushHist_apply_ge (hist : ℕ → ℤ) (l : List ℤ) (n b : ℕ) (hb : n ≤ b) :
    pushHist hist l n b = hist b := by
  induction l generalizing hist with
  | nil => simp [pushHist]
  | cons x l ih =>
      rw [pushHist, ih]
      by_cases h : 0 ≤ x ∧ x < (n : ℤ)
      · rw [if_pos h, Function.update_apply]
        have hbx : ¬(b = x.toNat) := by omega
        simp [hbx]
      · rw [if_neg h]

/-- `popHist` subtracts, from each in-range bin, the number of matching
elements. -/
lemma popHist_apply_lt (hist : ℕ → ℤ) (l : List ℤ) (n b : ℕ) (hb : b < n) :
    popHist hist l n b
      = hist b - (l.countP (fun x => decide (x = (b : ℤ))) : ℤ) := by
  induction l generalizing hist with
  | nil => simp [popHist]
  | cons x l ih =>
      rw [popHist, ih, popStep_apply hist x n b hb, List.countP_cons]
      simp only [decide_eq_true_eq]
      push_cast
      ring

/-- `popHist` never touches a bin index `≥ n_bins`. -/
lemma popHist_apply_ge (hist : ℕ → ℤ) (l : List ℤ) (n b : ℕ) (hb : n ≤ b) :
    popHist hist l n b = hist b := by
  induction l generalizing hist with
  | nil => simp [popHist]
  | cons x l ih =>
      rw [popHist, ih]
      by_cases h : 0 ≤ x ∧ x < (n : ℤ)
      · rw [if_pos h, Function.update_apply]
        have hbx : ¬(b = x.toNat) := by omega
        simp [hbx]
      · rw [if_neg h]

/-- C9: for every accumulator state, every finite sequence of (possibly
out-of-range) bin indices `S` and every bin count, incrementing over `S`
(`pushHist`) and then decrementing over `S` (`popHist`) returns the
accumulator to exactly its prior state. -/
theorem push_then_pop_restores (hist : ℕ → ℤ) (S : List ℤ) (n_bins : ℕ) :
    popHist (pushHist hist S n_bins) S n_bins = hist := by
  funext b
  rcases lt_or_le b n_bins with hb | hb
  · rw [popHist_apply_lt _ _ _ _ hb, pushHist_apply_lt _ _ _ _ hb]
    ring
  · rw [popHist_apply_ge _ _ _ _ hb, pushHist_apply_ge _ _ _ _ hb]

/-! The binner. -/

/-- On values in `[0, 1]` the binner produces an index in `[0, n_bins)`. -/
lemma binOf_mem_range (x : ℚ) (n : ℕ) (h0 : 0 ≤ x) (h1 : x ≤ 1)
    (hn : 0 < n) : 0 ≤ binOf x n ∧ binOf x n < (n : ℤ) := by
  have hxn0 : (0 : ℚ) ≤ x * (n : ℚ) := by positivity
  have hxn1 : x * (n : ℚ) ≤ (n : ℚ) := by
    calc x * (n : ℚ) ≤ 1 * (n : ℚ) := by
          exact mul_le_mul_of_nonneg_right h1 (by positivity)
      _ = (n : ℚ) := one_mul _
  have hf0 : 0 ≤ ⌊x * (n : ℚ)⌋ := Int.floor_nonneg.mpr hxn0
  have hfn : ⌊x * (n : ℚ)⌋ ≤ (n : ℤ) := by
    have := Int.floor_le_floor (α := ℚ) hxn1
    simpa using this
  unfold binOf
  by_cases h : ⌊x * (n : ℚ)⌋ = (n : ℤ)
  · rw [if_pos h]
    omega
  · rw [if_neg h]
    omega

/-- C8: the binner maps `value` to `floor(value * n_bins)` except that an
index of exactly `n_bins` (value exactly 1.0) is clamped to `n_bins - 1`;
consequently every value in `[0, 1]` lands in a bin index in `[0, n_bins)`. -/
theorem binner_floor_clamp_range (x : ℚ) (n_bins : ℕ)
    (h0 : 0 ≤ x) (h1 : x ≤ 1) (hn : 2 < n_bins) :
    binOf x n_bins
        = (if ⌊x * (n_bins : ℚ)⌋ = (n_bins : ℤ) then (n_bins : ℤ) - 1
           else ⌊x * (n_bins : ℚ)⌋)
      ∧ 0 ≤ binOf x n_bins ∧ binOf x n_bins < (n_bins : ℤ) := by
  refine ⟨rfl, binOf_mem_range x n_bins h0 h1 (by omega)⟩

/-- Witness for C8 at the clamp boundary: the value 1.0 with 4 bins maps to
bin 3, inside `[0, 4)`. -/
theorem binner_floor_clamp_range_witness :
    binOf 1 4 = (if ⌊(1 : ℚ) * (4 : ℚ)⌋ = (4 : ℤ) then (4 : ℤ) - 1
                 else ⌊(1 : ℚ) * (4 : ℚ)⌋)
      ∧ 0 ≤ binOf 1 4 ∧ binOf 1 4 < (4 : ℤ) :=
  binner_floor_clamp_range 1 4 (by norm_num) (by norm_num) (by norm_num)

/-! Arithmetic facts about `u64` and segment counting. -/

/-- Values already in `[0, 2^64)` pass through `u64` unchanged. -/
lemma u64_eq_toNat (x : ℤ) (h0 : 0 ≤ x) (h1 : x < 2 ^ 64) :
    u64 x = x.toNat := by
  unfold u64
  rw [Int.emod_eq_of_lt h0 h1]

/-- Cast form of `u64_eq_toNat`. -/
lemma u64_coe (x : ℤ) (h0 : 0 ≤ x) (h1 : x < 2 ^ 64) : (u64 x : ℤ) = x := by
  rw [u64_eq_toNat x h0 h1]
  exact Int.toNat_of_nonneg h0

/-- Counting matches in a one-element list. -/
lemma countP_singleton_eq (v b : ℤ) :
    List.countP (fun x => decide (x = b)) [v] = if v = b then 1 else 0 := by
  by_cases hv : v = b
  · simp [hv]
  · simp [hv]

/-- Splitting a segment count at an interior point. -/
lemma segCount_split (l : List ℤ) (a m k b : ℕ) :
    segCount l a (m + k) b = segCount l a m b + segCount l (a + m) k b := by
  unfold segCount
  rw [List.take_add, List.countP_append, List.drop_drop]

/-- Extending a segment count by the element at its right end. -/
lemma segCount_succ (l : List ℤ) (a s b : ℕ) (h : a + s < l.length) :
    segCount l a (s + 1) b
      = segCount l a s b + (if l.getD (a + s) 0 = (b : ℤ) then 1 else 0) := by
  unfold segCount
  rw [List.take_succ, List.countP_append]
  have hget : (l.drop a)[s]? = some (l.getD (a + s) 0) := by
    rw [List.getElem?_drop, List.getElem?_eq_getElem h,
      List.getD_eq_getElem?_getD, List.getElem?_eq_getElem h]
    rfl
  rw [hget, Option.toList_some, countP_singleton_eq]

/-! Evaluation of the pop and push loops of the sliding window. -/

/-- Unrolling the last iteration of the pop loop: the iterations over
`j < s` coincide with the pop loop of stride `s` started at `base - 1`,
because `offsets (s+1) j = offsets s j - 1` pointwise, and iteration
`j = s` has offset 0. -/
lemma popLoop_succ (buf : ℕ → ℤ) (input_int : List ℤ) (base : ℤ)
    (s n_bins input_len : ℕ) :
    popLoop buf input_int base (s + 1) n_bins input_len
      = (if u64 base < input_len then
          popHist (popLoop buf input_int (base - 1) s n_bins input_len)
            [input_int.getD (u64 base) 0] n_bins
        else popLoop buf input_int (base - 1) s n_bins input_len) := by
  unfold popLoop
  rw [List.range_succ, List.foldl_append]
  have hstep :
      (fun (h : ℕ → ℤ) (j : ℕ) =>
        let idx := u64 (base + offsets (s + 1) j)
        if idx < input_len then popHist h [input_int.getD idx 0] n_bins
        else h)
      = (fun (h : ℕ → ℤ) (j : ℕ) =>
        let idx := u64 ((base - 1) + offsets s j)
        if idx < input_len then popHist h [input_int.getD idx 0] n_bins
        else h) := by
    funext h j
    have harg : base + offsets (s + 1) j = (base - 1) + offsets s j := by
      unfold offsets
      push_cast
      ring
    simp only [harg]
  rw [hstep]
  have hlast : base - 1 + offsets s s = base := by
    unfold offsets
    ring
  simp only [List.foldl_cons, List.foldl_nil, hlast]

/-- Unrolling the last iteration of the push loop. -/
lemma pushLoop_succ (buf : ℕ → ℤ) (input_int : List ℤ) (base : ℤ)
    (s n_bins input_len : ℕ) :
    pushLoop buf input_int base (s + 1) n_bins input_len
      = (if u64 base < input_len then
          pushHist (pushLoop buf input_int (base - 1) s n_bins input_len)
            [input_int.getD (u64 base) 0] n_bins
        else pushLoop buf input_int (base - 1) s n_bins input_len) := by
  unfold pushLoop
  rw [List.range_succ, List.foldl_append]
  have hstep :
      (fun (h : ℕ → ℤ) (j : ℕ) =>
        let idx := u64 (base + offsets (s + 1) j)
        if idx < input_len then pushHist h [input_int.getD idx 0] n_bins
        else h)
      = (fun (h : ℕ → ℤ) (j : ℕ) =>
        let idx := u64 ((base - 1) + offsets s j)
        if idx < input_len then pushHist h [input_int.getD idx 0] n_bins
        else h) := by
    funext h j
    have harg : base + offsets (s + 1) j = (base - 1) + offsets s j := by
      unfold offsets
      push_cast
      ring
    simp only [harg]
  rw [hstep]
  have hlast : base - 1 + offsets s s = base := by
    unfold offsets
    ring
  simp only [List.foldl_cons, List.foldl_nil, hlast]

/-- The pop loop with all of its `stride` positions in bounds subtracts the
counts of the segment `[base + 1 - stride, base + 1)`. -/
lemma popLoop_eval (buf : ℕ → ℤ) (input_int : List ℤ) (base : ℤ)
    (s n_bins b : ℕ)
    (hsb : (s : ℤ) ≤ base + 1) (hbN : base < (input_int.length : ℤ))
    (h64 : (input_int.length : ℤ) ≤ 2 ^ 64) (hb : b < n_bins) :
    popLoop buf input_int base s n_bins input_int.length b
      = buf b - (segCount input_int (base + 1 - s).toNat s b : ℤ) := by
  induction s generalizing buf base with
  | zero => simp [popLoop, segCount]
  | succ s ih =>
      have hbase0 : 0 ≤ base := by omega
      have hu : u64 base = base.toNat := u64_eq_toNat base hbase0 (by omega)
      have hguard : u64 base < input_int.length := by omega
      rw [popLoop_succ, if_pos hguard, hu,
        popHist_apply_lt _ _ _ _ hb,
        ih buf (base - 1) (by omega) (by omega)]
      have ha : (base - 1 + 1 - (s : ℤ)).toNat = (base + 1 - (s + 1 : ℕ)).toNat := by
        omega
      have hseg : segCount input_int (base + 1 - (s + 1 : ℕ)).toNat (s + 1) b
          = segCount input_int (base + 1 - (s + 1 : ℕ)).toNat s b
            + (if input_int.getD base.toNat 0 = (b : ℤ) then 1 else 0) := by
        have hidx : (base + 1 - (s + 1 : ℕ)).toNat + s = base.toNat := by
          push_cast
          omega
        rw [segCount_succ input_int _ s b (by omega), hidx]
      rw [ha, hseg]
      rw [countP_singleton_eq]
      push_cast
      ring

/-- The push loop with all of its `stride` positions in bounds adds the
counts of the segment `[base + 1 - stride, base + 1)`. -/
lemma pushLoop_eval (buf : ℕ → ℤ) (input_int : List ℤ) (base : ℤ)
    (s n_bins b : ℕ)
    (hsb : (s : ℤ) ≤ base + 1) (hbN : base < (input_int.length : ℤ))
    (h64 : (input_int.length : ℤ) ≤ 2 ^ 64) (hb : b < n_bins) :
    pushLoop buf input_int base s n_bins input_int.length b
      = buf b + (segCount input_int (base + 1 - s).toNat s b : ℤ) := by
  induction s generalizing buf base with
  | zero => simp [pushLoop, segCount]
  | succ s ih =>
      have hbase0 : 0 ≤ base := by omega
      have hu : u64 base = base.toNat := u64_eq_toNat base hbase0 (by omega)
      have hguard : u64 base < input_int.length := by omega
      rw [pushLoop_succ, if_pos hguard, hu,
        pushHist_apply_lt _ _ _ _ hb,
        ih buf (base - 1) (by omega) (by omega)]
      have ha : (base - 1 + 1 - (s : ℤ)).toNat = (base + 1 - (s + 1 : ℕ)).toNat := by
        omega
      have hseg : segCount input_int (base + 1 - (s + 1 : ℕ)).toNat (s + 1) b
          = segCount input_int (base + 1 - (s + 1 : ℕ)).toNat s b
            + (if input_int.getD base.toNat 0 = (b : ℤ) then 1 else 0) := by
        have hidx : (base + 1 - (s + 1 : ℕ)).toNat + s = base.toNat := by
          push_cast
          omega
        rw [segCount_succ input_int _ s b (by omega), hidx]
      rw [ha, hseg]
      rw [countP_singleton_eq]
      push_cast
      ring

/-- Convenience form of `u64_coe` with the modulus as a literal. -/
lemma u64_coe_small (x : ℤ) (h0 : 0 ≤ x) (h1 : x < 18446744073709551616) :
    (u64 x : ℤ) = x := by
  have hp : (2 : ℤ) ^ 64 = 18446744073709551616 := by norm_num
  exact u64_coe x h0 (by rw [hp]; exact h1)

/-- With `win_len ≤ input_len` the `size_t` subtraction inside
`num_windows` does not wrap, so the C expression computes exactly
`floor((input_len - win_len) / stride) + 1`. -/
lemma numWindows_eq (N L s : ℕ) (hLN : L ≤ N) (h64 : N < 2 ^ 64) :
    numWindows N L s = (N - L) / s + 1 := by
  have hpow : (2 : ℕ) ^ 64 = 18446744073709551616 := by norm_num
  rw [hpow] at h64
  have hu : u64 ((N : ℤ) - (L : ℤ)) = N - L := by
    have h0 : 0 ≤ (N : ℤ) - (L : ℤ) := by omega
    have h1 : (N : ℤ) - (L : ℤ) < 2 ^ 64 := by
      have hpz : (2 : ℤ) ^ 64 = 18446744073709551616 := by norm_num
      rw [hpz]
      omega
    rw [u64_eq_toNat _ h0 h1]
    omega
  unfold numWindows
  rw [hu]

/-- Every window index below `num_windows` starts at offset at most
`input_len - win_len`. -/
lemma window_mul_le (N L s w : ℕ) (hLN : L ≤ N) (h64 : N < 2 ^ 64)
    (hw : w < numWindows N L s) : w * s ≤ N - L := by
  rw [numWindows_eq N L s hLN h64] at hw
  have hw2 : w ≤ (N - L) / s := by omega
  calc w * s ≤ (N - L) / s * s := Nat.mul_le_mul_right s hw2
    _ ≤ N - L := Nat.div_mul_le_self _ _

/-- Projection of `slideBody` onto the matrix component. -/
lemma slideBody_fst (input_int : List ℤ) (loci : ℕ → ℤ)
    (win_len n_bins stride input_len : ℕ)
    (st : (ℕ → ℕ → ℤ) × (ℕ → ℤ)) (w wp b : ℕ) :
    (slideBody input_int loci win_len n_bins stride input_len st w).1 wp b
      = if wp = w ∧ b < n_bins then
          slideOnce st.2 input_int (loci w) win_len n_bins stride input_len b
        else st.1 wp b := rfl

/-- Projection of `slideBody` onto the accumulator component. -/
lemma slideBody_snd (input_int : List ℤ) (loci : ℕ → ℤ)
    (win_len n_bins stride input_len : ℕ)
    (st : (ℕ → ℕ → ℤ) × (ℕ → ℤ)) (w : ℕ) :
    (slideBody input_int loci win_len n_bins stride input_len st w).2
      = slideOnce st.2 input_int (loci w) win_len n_bins stride input_len :=
  rfl

/-- Unfolding of `bufferAt` at a successor index. -/
lemma bufferAt_succ (buffer0 : ℕ → ℤ) (input_int : List ℤ) (loci : ℕ → ℤ)
    (win_len n_bins stride input_len k : ℕ) :
    bufferAt buffer0 input_int loci win_len n_bins stride input_len (k + 1)
      = slideOnce
          (bufferAt buffer0 input_int loci win_len n_bins stride input_len k)
          input_int (loci (k + 1)) win_len n_bins stride input_len := by
  rw [bufferAt]

/-- Accumulator component of the fold of `slideBody` over windows
`1 .. k`: it is the `k`-th state of the recurrence. -/
lemma foldl_slideBody_snd (histMat : ℕ → ℕ → ℤ) (buffer0 : ℕ → ℤ)
    (input_int : List ℤ) (loci : ℕ → ℤ)
    (win_len n_bins stride input_len : ℕ) (k : ℕ) :
    ((List.range' 1 k).foldl
        (slideBody input_int loci win_len n_bins stride input_len)
        (histMat, buffer0)).2
      = bufferAt buffer0 input_int loci win_len n_bins stride input_len k := by
  induction k generalizing histMat with
  | zero => rfl
  | succ k ih =>
      rw [List.range'_1_concat, List.foldl_append]
      simp only [List.foldl_cons, List.foldl_nil, slideBody_snd,
        ih histMat, show 1 + k = k + 1 from by omega]
      rw [bufferAt_succ]

/-- Matrix component of the fold of `slideBody` over windows `1 .. k`:
column `w` (rows `b < n_bins`) holds the `w`-th state of the recurrence for
`1 ≤ w ≤ k`; everything else is untouched. -/
lemma foldl_slideBody_fst (histMat : ℕ → ℕ → ℤ) (buffer0 : ℕ → ℤ)
    (input_int : List ℤ) (loci : ℕ → ℤ)
    (win_len n_bins stride input_len : ℕ) (k wp b : ℕ) :
    ((List.range' 1 k).foldl
        (slideBody input_int loci win_len n_bins stride input_len)
        (histMat, buffer0)).1 wp b
      = if 1 ≤ wp ∧ wp ≤ k ∧ b < n_bins then
          bufferAt buffer0 input_int loci win_len n_bins stride input_len wp b
        else histMat wp b := by
  induction k with
  | zero =>
      rw [if_neg (by omega)]
      rfl
  | succ k ih =>
      rw [List.range'_1_concat, List.foldl_append]
      simp only [List.foldl_cons, List.foldl_nil, slideBody_fst,
        foldl_slideBody_snd histMat buffer0 input_int loci
          win_len n_bins stride input_len k,
        ih, show 1 + k = k + 1 from by omega]
      rw [← bufferAt_succ]
      rcases Nat.lt_or_ge b n_bins with hb | hb
      · by_cases h1 : wp = k + 1
        · subst h1
          rw [if_pos ⟨rfl, hb⟩, if_pos (by omega)]
        · rw [if_neg (by omega)]
          by_cases h2 : 1 ≤ wp ∧ wp ≤ k ∧ b < n_bins
          · rw [if_pos h2, if_pos (by omega)]
          · rw [if_neg h2, if_neg (by omega)]
      · rw [if_neg (by omega), if_neg (by omega), if_neg (by omega)]

/-- The sliding-recurrence invariant: after processing window `w`, the
accumulator holds (on rows `b < n_bins`) exactly the histogram of input
positions `[w * stride, w * stride + win_len)`. -/
lemma bufferAt_eval (input_int : List ℤ) (win_len n_bins stride w b : ℕ)
    (hs : 0 < stride) (hsL : stride < win_len)
    (hLN : win_len ≤ input_int.length)
    (h64 : input_int.length < 2 ^ 64)
    (hw : w < numWindows input_int.length win_len stride)
    (hb : b < n_bins) :
    bufferAt (pushHist (fun _ => 0) (input_int.take win_len) n_bins)
        input_int (lociOf stride) win_len n_bins stride input_int.length w b
      = (segCount input_int (w * stride) win_len b : ℤ) := by
  have h64n : input_int.length < 18446744073709551616 := by
    have hp : (2 : ℕ) ^ 64 = 18446744073709551616 := by norm_num
    rw [hp] at h64
    exact h64
  induction w with
  | zero =>
      rw [bufferAt, pushHist_apply_lt _ _ _ _ hb]
      unfold segCount
      rw [show (0 : ℕ) * stride = 0 from by omega, List.drop_zero]
      ring
  | succ w ih =>
      have hIH := ih (Nat.lt_of_succ_lt hw)
      have hmul : (w + 1) * stride ≤ input_int.length - win_len :=
        window_mul_le _ _ _ _ hLN h64 hw
      have hq : (w + 1) * stride = w * stride + stride := by ring
      rw [hq] at hmul
      have hcast : ((w + 1 : ℕ) : ℤ) * (stride : ℤ)
          = ((w * stride + stride : ℕ) : ℤ) := by
        push_cast
        ring
      have hloci : (u64 (lociOf stride (w + 1)) : ℤ)
          = ((w * stride + stride : ℕ) : ℤ) + 1 := by
        unfold lociOf
        rw [hcast]
        apply u64_coe_small
        · omega
        · omega
      rw [bufferAt_succ]
      unfold slideOnce
      rw [pushLoop_eval _ input_int _ stride n_bins b
          (by rw [hloci]; push_cast; omega)
          (by rw [hloci]; push_cast; omega)
          (by have hpz : (2 : ℤ) ^ 64 = 18446744073709551616 := by norm_num
              rw [hpz]; omega)
          hb,
        popLoop_eval _ input_int _ stride n_bins b
          (by rw [hloci]; omega)
          (by rw [hloci]; push_cast; omega)
          (by have hpz : (2 : ℤ) ^ 64 = 18446744073709551616 := by norm_num
              rw [hpz]; omega)
          hb,
        hIH]
      have hApop : ((u64 (lociOf stride (w + 1)) : ℤ) - 2 + 1 - stride).toNat
          = w * stride := by
        rw [hloci]
        omega
      have hApush : ((u64 (lociOf stride (w + 1)) : ℤ) + (win_len : ℤ) - 2
            + 1 - stride).toNat = w * stride + win_len := by
        rw [hloci]
        omega
      rw [hApop, hApush, hq]
      have hsplit1 : segCount input_int (w * stride) win_len b
          = segCount input_int (w * stride) stride b
            + segCount input_int (w * stride + stride) (win_len - stride) b := by
        rw [show win_len = stride + (win_len - stride) from by omega]
        rw [segCount_split]
        rw [show stride + (win_len - stride) - stride = win_len - stride from by
          omega]
      have hsplit2 : segCount input_int (w * stride + stride) win_len b
          = segCount input_int (w * stride + stride) (win_len - stride) b
            + segCount input_int (w * stride + win_len) stride b := by
        rw [show win_len = (win_len - stride) + stride from by omega]
        rw [segCount_split]
        rw [show (win_len - stride) + stride - stride = win_len - stride from by
          omega]
        rw [show w * stride + stride + (win_len - stride)
            = w * stride + ((win_len - stride) + stride) from by omega]
      rw [hsplit1, hsplit2]
      push_cast
      ring

/-- Column `w`, row `b` of the matrix produced by `tswHist` is the histogram
count of bin `b` over input positions `[w * stride, w * stride + win_len)`. -/
lemma tswHist_histMat_eval (input_norm : List ℚ) (n_bins win_len stride : ℕ)
    (histMat0 : ℕ → ℕ → ℤ) (w b : ℕ)
    (hs : 0 < stride) (hsL : stride < win_len)
    (hLN : win_len ≤ input_norm.length) (h64 : input_norm.length < 2 ^ 64)
    (hw : w < numWindows input_norm.length win_len stride) (hb : b < n_bins) :
    (tswHist input_norm n_bins win_len stride histMat0).histMat w b
      = (segCount (tswBinned input_norm n_bins) (w * stride) win_len b : ℤ) := by
  have hlen : (tswBinned input_norm n_bins).length = input_norm.length :=
    List.length_map _ _
  show (tswHistSlidingWindow
      (fun wp bp =>
        if wp = 0 ∧ bp < n_bins then
          pushHist (fun _ => 0) ((tswBinned input_norm n_bins).take win_len)
            n_bins bp
        else histMat0 wp bp)
      (pushHist (fun _ => 0) ((tswBinned input_norm n_bins).take win_len)
        n_bins)
      (tswBinned input_norm n_bins) (lociOf stride)
      (numWindows input_norm.length win_len stride) win_len n_bins stride
      input_norm.length).1 w b = _
  unfold tswHistSlidingWindow
  rw [foldl_slideBody_fst]
  rcases Nat.eq_zero_or_pos w with hw0 | hw1
  · subst hw0
    rw [if_neg (by omega)]
    show (if (0 : ℕ) = 0 ∧ b < n_bins then
        pushHist (fun _ => 0) ((tswBinned input_norm n_bins).take win_len)
          n_bins b
      else histMat0 0 b) = _
    rw [if_pos ⟨rfl, hb⟩]
    have h0 := bufferAt_eval (tswBinned input_norm n_bins) win_len n_bins
      stride 0 b hs hsL (by rw [hlen]; exact hLN) (by rw [hlen]; exact h64)
      (by rw [hlen]; exact hw) hb
    rw [bufferAt] at h0
    exact h0
  · rw [if_pos ⟨hw1, by omega, hb⟩, ← hlen]
    exact bufferAt_eval (tswBinned input_norm n_bins) win_len n_bins stride
      w b hs hsL (by rw [hlen]; exact hLN) (by rw [hlen]; exact h64)
      (by rw [hlen]; exact hw) hb

/-- The from-scratch histogram counts exactly the matching elements of its
window, bin by bin. -/
lemma scratchHist_eval (l : List ℤ) (a win_len n b : ℕ) (hb : b < n) :
    scratchHist l a win_len n b = (segCount l a win_len b : ℤ) := by
  unfold scratchHist segCount
  rw [pushHist_apply_lt _ _ _ _ hb]
  ring

/-- C4: for `0 < stride < win_len <= N`, the engine computes
`num_windows = floor((N - win_len) / stride) + 1` exactly (natural-number
division is floor division), whether or not `stride` divides `N - win_len`. -/
theorem numWindows_exact (N win_len stride : ℕ)
    (hs : 0 < stride) (hsL : stride < win_len) (hLN : win_len ≤ N)
    (h64 : N < 2 ^ 64) :
    numWindows N win_len stride = (N - win_len) / stride + 1 :=
  numWindows_eq N win_len stride hLN h64

/-- Witness for C4 at an exact multiple (`10 - 4 = 6 = 3 * 2`) and a
non-multiple (`11 - 4 = 7`). -/
theorem numWindows_exact_witness :
    numWindows 10 4 2 = (10 - 4) / 2 + 1 ∧ numWindows 11 4 2 = (11 - 4) / 2 + 1 :=
  ⟨numWindows_exact 10 4 2 (by norm_num) (by norm_num) (by norm_num)
      (by norm_num),
   numWindows_exact 11 4 2 (by norm_num) (by norm_num) (by norm_num)
      (by norm_num)⟩

/-- C3: during transition to window `w` (for `1 ≤ w < num_windows`), the
departing position for offset `j` is exactly `(w-1)*stride + j` and the
arriving position exactly `w*stride + win_len - stride + j`, and both lie in
`[0, N)` — so the `idx < input_len` guard always holds and no contribution is
dropped.  The expressions are the `u64` index computations of the pop and
push loops with the bases used by `slideOnce`. -/
theorem transition_positions_in_bounds (N win_len stride w j : ℕ)
    (hs : 0 < stride) (hsL : stride < win_len) (hLN : win_len ≤ N)
    (h64 : N < 2 ^ 64) (hw1 : 1 ≤ w)
    (hw2 : w < numWindows N win_len stride) (hj : j < stride) :
    u64 ((u64 (lociOf stride w) : ℤ) - 2 + offsets stride j)
        = (w - 1) * stride + j
    ∧ (w - 1) * stride + j < N
    ∧ u64 ((u64 (lociOf stride w) : ℤ) + (win_len : ℤ) - 2
          + offsets stride j)
        = w * stride + win_len - stride + j
    ∧ w * stride + win_len - stride + j < N := by
  have h64n : N < 18446744073709551616 := by
    have hp : (2 : ℕ) ^ 64 = 18446744073709551616 := by norm_num
    rw [hp] at h64
    exact h64
  have hmul : w * stride ≤ N - win_len := window_mul_le N win_len stride w hLN h64 hw2
  have hq : w * stride = (w - 1) * stride + stride := by
    have hw3 : w - 1 + 1 = w := by omega
    calc w * stride = (w - 1 + 1) * stride := by rw [hw3]
      _ = (w - 1) * stride + stride := by ring
  have hcast : (u64 (lociOf stride w) : ℤ) = ((w * stride : ℕ) : ℤ) + 1 := by
    unfold lociOf
    rw [show ((w : ℕ) : ℤ) * (stride : ℤ) = ((w * stride : ℕ) : ℤ) from by
      push_cast; ring]
    apply u64_coe_small
    · omega
    · omega
  have hXpop : (u64 (lociOf stride w) : ℤ) - 2 + offsets stride j
      = ((w * stride : ℕ) : ℤ) - 1 - ((stride : ℤ) - 1 - j) := by
    rw [hcast]
    unfold offsets
    ring
  have hXpush : (u64 (lociOf stride w) : ℤ) + (win_len : ℤ) - 2
        + offsets stride j
      = ((w * stride : ℕ) : ℤ) + win_len - 1 - ((stride : ℤ) - 1 - j) := by
    rw [hcast]
    unfold offsets
    ring
  refine ⟨?_, by omega, ?_, by omega⟩
  · rw [hXpop, u64_eq_toNat _ (by omega) (by
      have hpz : (2 : ℤ) ^ 64 = 18446744073709551616 := by norm_num
      rw [hpz]
      omega)]
    omega
  · rw [hXpush, u64_eq_toNat _ (by omega) (by
      have hpz : (2 : ℤ) ^ 64 = 18446744073709551616 := by norm_num
      rw [hpz]
      omega)]
    omega

/-- Witness for C3 with `N = 8`, `win_len = 4`, `stride = 2`, `w = 1`,
`j = 0`: departing position 0 and arriving position 4, both below 8. -/
theorem transition_positions_in_bounds_witness :
    u64 ((u64 (lociOf 2 1) : ℤ) - 2 + offsets 2 0) = (1 - 1) * 2 + 0
    ∧ (1 - 1) * 2 + 0 < 8
    ∧ u64 ((u64 (lociOf 2 1) : ℤ) + (4 : ℤ) - 2 + offsets 2 0)
        = 1 * 2 + 4 - 2 + 0
    ∧ 1 * 2 + 4 - 2 + 0 < 8 :=
  transition_positions_in_bounds 8 4 2 1 0 (by norm_num) (by norm_num)
    (by norm_num) (by norm_num) (by norm_num) (by decide) (by norm_num)

/-- The fold of `slideBody` leaves every matrix column whose index is not in
the processed window list untouched. -/
lemma foldl_slideBody_frame (input_int : List ℤ) (loci : ℕ → ℤ)
    (win_len n_bins stride input_len : ℕ) (ws : List ℕ)
    (st : (ℕ → ℕ → ℤ) × (ℕ → ℤ)) (wp b : ℕ) (h : wp ∉ ws) :
    ((ws.foldl (slideBody input_int loci win_len n_bins stride input_len)
        st).1 wp b)
      = st.1 wp b := by
  induction ws generalizing st with
  | nil => rfl
  | cons w ws ih =>
      rw [List.mem_cons] at h
      push_neg at h
      rw [List.foldl_cons, ih _ h.2, slideBody_fst, if_neg (by tauto)]

/-- C10: `tswHistSlidingWindow` writes only columns `1 .. num_windows - 1`
of the histogram matrix: column 0 (seeded before the loop) and any column
with index `≥ num_windows` are returned exactly as passed in.  The binned
input, the window loci and the offsets are `const` inputs of the function
and cannot be written at all; the only other state it threads is the shared
accumulator. -/
theorem slidingWindow_frame (histMat : ℕ → ℕ → ℤ) (bufferHist : ℕ → ℤ)
    (input_int : List ℤ) (strided_windows_loci : ℕ → ℤ)
    (num_windows win_len n_bins stride input_len wp b : ℕ)
    (h : wp = 0 ∨ num_windows ≤ wp) :
    (tswHistSlidingWindow histMat bufferHist input_int strided_windows_loci
        num_windows win_len n_bins stride input_len).1 wp b
      = histMat wp b := by
  unfold tswHistSlidingWindow
  rw [foldl_slideBody_frame]
  intro hmem
  rw [List.mem_range'] at hmem
  obtain ⟨i, hi, heq⟩ := hmem
  omega

/-- Witness for C10: with 3 windows, column 0 of a constant-7 matrix is
still 7 after the sliding loop. -/
theorem slidingWindow_frame_witness :
    (tswHistSlidingWindow (fun _ _ => 7) (fun _ => 0) [0, 1, 2, 0, 1]
        (lociOf 1) 3 3 3 1 5).1 0 0 = 7 :=
  slidingWindow_frame (fun _ _ => 7) (fun _ => 0) [0, 1, 2, 0, 1]
    (lociOf 1) 3 3 3 1 5 0 0 (Or.inl rfl)

/-- C1: for every valid configuration (`n_bins > 2`,
`0 < stride < win_len ≤ N`, values in `[0, 1]`), every column `w` of the
matrix produced by the incremental engine — seed from the first `win_len`
elements, then pop the departing and push the arriving `stride` elements per
transition — equals, integer-exactly and row by row, the histogram obtained
by binning and fully counting input positions
`[w * stride, w * stride + win_len)` from scratch. -/
theorem incremental_matches_scratch (input_norm : List ℚ)
    (n_bins win_len stride : ℕ) (histMat0 : ℕ → ℕ → ℤ) (w b : ℕ)
    (hn : 2 < n_bins) (hs : 0 < stride) (hsL : stride < win_len)
    (hLN : win_len ≤ input_norm.length) (h64 : input_norm.length < 2 ^ 64)
    (hrange : ∀ x ∈ input_norm, 0 ≤ x ∧ x ≤ 1)
    (hw : w < numWindows input_norm.length win_len stride)
    (hb : b < n_bins) :
    (tswHist input_norm n_bins win_len stride histMat0).histMat w b
      = scratchHist (tswBinned input_norm n_bins) (w * stride) win_len
          n_bins b := by
  rw [tswHist_histMat_eval input_norm n_bins win_len stride histMat0 w b
      hs hsL hLN h64 hw hb,
    scratchHist_eval _ _ _ _ _ hb]

/-- Witness for C1 on the concrete scenario of the specification:
8 pre-normalized samples, 4 bins, window length 4, stride 2; column 1,
bin 1. -/
theorem incremental_matches_scratch_witness :
    (tswHist [0, 1/10, 1/4, 2/5, 11/20, 7/10, 17/20, 19/20] 4 4 2
        (fun _ _ => 0)).histMat 1 1
      = scratchHist
          (tswBinned [0, 1/10, 1/4, 2/5, 11/20, 7/10, 17/20, 19/20] 4)
          (1 * 2) 4 4 1 :=
  incremental_matches_scratch [0, 1/10, 1/4, 2/5, 11/20, 7/10, 17/20, 19/20]
    4 4 2 (fun _ _ => 0) 1 1 (by norm_num) (by norm_num) (by norm_num)
    (by decide) (by decide) (by intro x hx; fin_cases hx <;> norm_num)
    (by decide) (by norm_num)

/-- Summing the per-bin match counts over all bins of a list whose elements
all lie in `[0, n)` yields the length of the list. -/
lemma sum_countP_eq_length (n : ℕ) (l : List ℤ)
    (hall : ∀ x ∈ l, 0 ≤ x ∧ x < (n : ℤ)) :
    ∑ b ∈ Finset.range n, (l.countP (fun x => decide (x = (b : ℤ))) : ℤ)
      = (l.length : ℤ) := by
  induction l with
  | nil => simp
  | cons x l ih =>
      have hx := hall x (List.mem_cons_self x l)
      have hrest : ∀ y ∈ l, 0 ≤ y ∧ y < (n : ℤ) := fun y hy =>
        hall y (List.mem_cons_of_mem x hy)
      have hcnt : ∀ b : ℕ,
          (((x :: l).countP (fun v => decide (v = (b : ℤ))) : ℕ) : ℤ)
            = ((l.countP (fun v => decide (v = (b : ℤ))) : ℕ) : ℤ)
              + (if b = x.toNat then (1 : ℤ) else 0) := by
        intro b
        rw [List.countP_cons]
        by_cases hbx : x = (b : ℤ)
        · rw [if_pos (by simp [hbx]), if_pos (by omega)]
          push_cast
          ring
        · rw [if_neg (by simp [hbx]), if_neg (by omega)]
          push_cast
          ring
      calc ∑ b ∈ Finset.range n,
            (((x :: l).countP (fun v => decide (v = (b : ℤ))) : ℕ) : ℤ)
          = ∑ b ∈ Finset.range n,
              (((l.countP (fun v => decide (v = (b : ℤ))) : ℕ) : ℤ)
                + (if b = x.toNat then (1 : ℤ) else 0)) :=
            Finset.sum_congr rfl (fun b _ => hcnt b)
        _ = (∑ b ∈ Finset.range n,
              ((l.countP (fun v => decide (v = (b : ℤ))) : ℕ) : ℤ))
            + ∑ b ∈ Finset.range n, (if b = x.toNat then (1 : ℤ) else 0) :=
            Finset.sum_add_distrib
        _ = (l.length : ℤ) + 1 := by
            rw [ih hrest,
              Finset.sum_ite_eq' (Finset.range n) x.toNat
                (fun _ => (1 : ℤ)),
              if_pos (Finset.mem_range.mpr (by omega))]
        _ = ((x :: l).length : ℤ) := by
            rw [List.length_cons]
            push_cast
            ring

/-- C2: for every valid configuration in which no bin index is dropped as
out-of-range — guaranteed in the pre-normalized variant whenever every input
value lies in `[0, 1]` — every column `w` of the output histogram matrix
sums to exactly `win_len`. -/
theorem column_sum_win_len (input_norm : List ℚ) (n_bins win_len stride : ℕ)
    (histMat0 : ℕ → ℕ → ℤ) (w : ℕ)
    (hn : 2 < n_bins) (hs : 0 < stride) (hsL : stride < win_len)
    (hLN : win_len ≤ input_norm.length) (h64 : input_norm.length < 2 ^ 64)
    (hrange : ∀ x ∈ input_norm, 0 ≤ x ∧ x ≤ 1)
    (hw : w < numWindows input_norm.length win_len stride) :
    ∑ b ∈ Finset.range n_bins,
        (tswHist input_norm n_bins win_len stride histMat0).histMat w b
      = (win_len : ℤ) := by
  rw [Finset.sum_congr rfl (fun b hb =>
    tswHist_histMat_eval input_norm n_bins win_len stride histMat0 w b hs hsL
      hLN h64 hw (Finset.mem_range.mp hb))]
  unfold segCount
  have hall : ∀ x ∈ ((tswBinned input_norm n_bins).drop (w * stride)).take
      win_len, 0 ≤ x ∧ x < (n_bins : ℤ) := by
    intro x hx
    have hx1 : x ∈ tswBinned input_norm n_bins :=
      List.mem_of_mem_drop (List.mem_of_mem_take hx)
    obtain ⟨v, hv, hvx⟩ := List.mem_map.mp hx1
    rw [← hvx]
    exact binOf_mem_range v n_bins (hrange v hv).1 (hrange v hv).2 (by omega)
  rw [sum_countP_eq_length n_bins _ hall]
  have hlenb : (tswBinned input_norm n_bins).length = input_norm.length := by
    simp [tswBinned]
  have hlen2 : (((tswBinned input_norm n_bins).drop (w * stride)).take
      win_len).length = win_len := by
    rw [List.length_take, List.length_drop, hlenb]
    have hmul := window_mul_le input_norm.length win_len stride w hLN h64 hw
    omega
  rw [hlen2]

/-- Witness for C2 on the specification scenario: column 2 of the 3-window
computation sums to the window length 4. -/
theorem column_sum_win_len_witness :
    ∑ b ∈ Finset.range 4,
        (tswHist [0, 1/10, 1/4, 2/5, 11/20, 7/10, 17/20, 19/20] 4 4 2
          (fun _ _ => 0)).histMat 2 b
      = (4 : ℤ) :=
  column_sum_win_len [0, 1/10, 1/4, 2/5, 11/20, 7/10, 17/20, 19/20]
    4 4 2 (fun _ _ => 0) 2 (by norm_num) (by norm_num) (by norm_num)
    (by decide) (by decide) (by intro x hx; fin_cases hx <;> norm_num)
    (by decide)

/-- C5: both MEX gateways reject every call with `n_bins <= 2` with the
`badBins` error, and every call with `stride >= win_len` (including
`stride == win_len`) with the `strideWin` error (when `n_bins` is valid),
returning the error instead of any computed output — in the model the
`Except.error` value is produced by the validation branch, before the `ok`
branch containing all allocation and binning work. -/
theorem entry_rejects_bins_and_stride (input : List ℚ)
    (n_bins win_len stride : ℕ) :
    (n_bins ≤ 2 →
      mexFunction_c input n_bins win_len stride = .error .badBins
      ∧ mexFunction_mx input n_bins win_len stride = .error .badBins)
    ∧ (2 < n_bins → win_len ≤ stride →
      mexFunction_c input n_bins win_len stride = .error .strideWin
      ∧ mexFunction_mx input n_bins win_len stride = .error .strideWin) := by
  constructor
  · intro h
    constructor
    · unfold mexFunction_c
      rw [if_pos h]
    · unfold mexFunction_mx
      rw [if_pos h]
  · intro h1 h2
    constructor
    · unfold mexFunction_c
      rw [if_neg (by omega), if_pos h2]
    · unfold mexFunction_mx
      rw [if_neg (by omega), if_pos h2]

/-- Witness for C5: `n_bins = 2` is rejected as `badBins`, and
`stride == win_len` exactly (4 = 4) is rejected as `strideWin`. -/
theorem entry_rejects_bins_and_stride_witness :
    mexFunction_c [1/2] 2 4 2 = .error .badBins
    ∧ mexFunction_mx [1/2] 5 4 4 = .error .strideWin :=
  ⟨((entry_rejects_bins_and_stride [1/2] 2 4 2).1 (by norm_num)).1,
   ((entry_rejects_bins_and_stride [1/2] 5 4 4).2 (by norm_num)
      (by norm_num)).2⟩

/-- C6 (failing behaviour): the pre-normalized gateway performs no
`win_len > N` check and no empty-input check.  With 2 samples and
`win_len = 5` it returns a computed result instead of an error, and the
`size_t` subtraction in `num_windows` wraps to 2^64 - 2; the same happens
for empty input. -/
theorem no_rejection_winlen_gt_n_or_empty :
    mexFunction_c [1/2, 1/4] 4 5 1
        = .ok (tswHist [1/2, 1/4] 4 5 1 (fun _ _ => 0))
    ∧ mexFunction_c ([] : List ℚ) 4 3 1
        = .ok (tswHist ([] : List ℚ) 4 3 1 (fun _ _ => 0))
    ∧ numWindows 2 5 1 = 18446744073709551614
    ∧ numWindows 0 3 1 = 18446744073709551614 :=
  ⟨rfl, rfl, by decide, by decide⟩

/-- C7 (failing behaviour): the range-normalized gateway has no degenerate
range check.  On a constant input (`min_val = max_val`) it does not reject:
it proceeds into the normalization `(x - min_val) / (max_val - min_val)`
(division by zero — NaN in C) and returns a computed result. -/
theorem no_rejection_degenerate_range :
    minVal [1/2, 1/2, 1/2, 1/2] = maxVal [1/2, 1/2, 1/2, 1/2]
    ∧ mexFunction_mx [1/2, 1/2, 1/2, 1/2] 4 3 1
        = .ok (tswHist_mx_body [1/2, 1/2, 1/2, 1/2] 4 3 1) := by
  constructor
  · simp [minVal, maxVal]
  · rfl

end TswHist
